import Mathlib

/-!
Verification of the retrieval-and-answer-composition core in `rag.py`.

The Python source is shallowly embedded: each definition below mirrors the
Python function of the same (or nearly the same) name.  Python strings are
modelled as Lean `String` (a list of characters; `len` is character count,
matching Python), Python `float` arithmetic is idealised as exact rational
arithmetic over `ℚ`, and Python's stable `list.sort` is modelled by a stable
insertion sort (`stableSort` below); any two stable sorts of the same list
under the same comparison agree, so the choice of stable algorithm is
semantically irrelevant.  ASCII semantics are assumed for case folding and
whitespace, matching the regular expressions in the source
(`[a-zA-Z0-9']`, `\s` over the ASCII corpus).
-/

/-! ## Small string utilities shared by the embedding -/

/-- Character class of the token regex `[a-zA-Z0-9']` in `_simple_tokenize`
(`rag.py` line 132).  `Char.isAlphanum` is exactly `[a-zA-Z0-9]`;
`Char.ofNat 39` is the apostrophe. -/
def isTokenChar (c : Char) : Bool :=
  c.isAlphanum || c == Char.ofNat 39

/-- Python `str.lower()` restricted to ASCII, applied character-wise
(`Char.toLower` lowers exactly `A`-`Z`). -/
def lowerStr (s : String) : String :=
  ⟨s.data.map Char.toLower⟩

/-- ASCII whitespace class used for Python's `\s` and `str.strip()`:
space, tab, newline, vertical tab, form feed, carriage return. -/
def isPySpace (c : Char) : Bool :=
  c == ' ' || c == Char.ofNat 9 || c == Char.ofNat 10 ||
    c == Char.ofNat 11 || c == Char.ofNat 12 || c == Char.ofNat 13

/-- Strip `isPySpace` characters from both ends of a character list
(Python `str.strip()`). -/
def stripList (l : List Char) : List Char :=
  ((l.dropWhile isPySpace).reverse.dropWhile isPySpace).reverse

/-- Python `str.strip()`. -/
def pyStrip (s : String) : String :=
  ⟨stripList s.data⟩

/-- Python `str.rstrip()`. -/
def pyRStrip (s : String) : String :=
  ⟨(s.data.reverse.dropWhile isPySpace).reverse⟩

/-- Python slicing `s[:n]` for a nonnegative bound `n`. -/
def takeChars (s : String) (n : ℕ) : String :=
  ⟨s.data.take n⟩

/-! ## Stable sorting

Python's `list.sort` is a stable sort; with `reverse=True` it performs a
stable sort under the reversed comparison of keys.  We embed it as a stable
insertion sort: `insertStable` places `x` before the first element `y` with
`le x y`, and `stableSort` inserts from the right, so elements that compare
equal keep their original relative order — the defining property of every
stable sort, hence of Python's. -/

/-- Insert `x` into `l` before the first element `y` with `le x y`. -/
def insertStable (le : α → α → Bool) (x : α) : List α → List α
  | [] => [x]
  | y :: ys => if le x y then x :: y :: ys else y :: insertStable le x ys

/-- Stable insertion sort with a boolean comparison. -/
def stableSort (le : α → α → Bool) : List α → List α
  | [] => []
  | x :: xs => insertStable le x (stableSort le xs)

theorem insertStable_perm (le : α → α → Bool) (x : α) (l : List α) :
    List.Perm (insertStable le x l) (x :: l) := by
  induction l with
  | nil => rfl
  | cons y ys ih =>
      unfold insertStable
      by_cases h : le x y = true
      · rw [if_pos h]
      · rw [if_neg h]
        exact ((ih.cons y).trans (List.Perm.swap x y ys))

theorem stableSort_perm (le : α → α → Bool) (l : List α) :
    List.Perm (stableSort le l) l := by
  induction l with
  | nil => rfl
  | cons x xs ih =>
      exact (insertStable_perm le x (stableSort le xs)).trans (ih.cons x)

theorem length_insertStable (le : α → α → Bool) (x : α) (l : List α) :
    (insertStable le x l).length = l.length + 1 :=
  (insertStable_perm le x l).length_eq

theorem length_stableSort (le : α → α → Bool) (l : List α) :
    (stableSort le l).length = l.length :=
  (stableSort_perm le l).length_eq

theorem stableSort_eq_nil_iff (le : α → α → Bool) (l : List α) :
    stableSort le l = [] ↔ l = [] := by
  constructor
  · intro h
    have := length_stableSort le l
    rw [h] at this
    exact List.length_eq_zero.mp this.symm
  · intro h; rw [h]; rfl

theorem pairwise_insertStable {le : α → α → Bool}
    (total : ∀ a b, le a b || le b a) (trans : ∀ a b c, le a b → le b c → le a c)
    (x : α) (l : List α) (h : l.Pairwise (fun a b => le a b = true)) :
    (insertStable le x l).Pairwise (fun a b => le a b = true) := by
  induction l with
  | nil => simp [insertStable]
  | cons y ys ih =>
      unfold insertStable
      rcases List.pairwise_cons.mp h with ⟨hy, hys⟩
      by_cases hxy : le x y = true
      · rw [if_pos hxy]
        refine List.pairwise_cons.mpr ⟨?_, h⟩
        intro b hb
        rcases List.mem_cons.mp hb with hb | hb
        · subst hb; exact hxy
        · exact trans x y b hxy (hy b hb)
      · rw [if_neg hxy]
        refine List.pairwise_cons.mpr ⟨?_, ih hys⟩
        intro b hb
        have hb2 := (insertStable_perm le x ys).mem_iff.mp hb
        rcases List.mem_cons.mp hb2 with hb3 | hb3
        · rw [hb3]
          rcases Bool.or_eq_true_iff.mp (total x y) with h' | h'
          · exact absurd h' hxy
          · exact h'
        · exact hy b hb3

theorem pairwise_stableSort {le : α → α → Bool}
    (total : ∀ a b, le a b || le b a) (trans : ∀ a b c, le a b → le b c → le a c)
    (l : List α) : (stableSort le l).Pairwise (fun a b => le a b = true) := by
  induction l with
  | nil => simp [stableSort]
  | cons x xs ih => exact pairwise_insertStable total trans x (stableSort le xs) ih

/-! ## Tokenization and lexical score -/

/-- Scanner computing the maximal runs of token characters, as matched by
`re.findall(r"[a-zA-Z0-9']+", ...)`; `cur` holds the characters of the run
in progress, in reverse. -/
def tokenizeGo : List Char → List Char → List String
  | [], cur => if cur.isEmpty then [] else [⟨cur.reverse⟩]
  | c :: rest, cur =>
      if isTokenChar c then tokenizeGo rest (c :: cur)
      else if cur.isEmpty then tokenizeGo rest []
      else ⟨cur.reverse⟩ :: tokenizeGo rest []

/-- `_simple_tokenize` (`rag.py` lines 130-132): lowercase the text, then
collect the maximal alphanumeric-or-apostrophe runs. -/
def simple_tokenize (s : String) : List String :=
  tokenizeGo (lowerStr s).data []

/-- `_keyword_overlap_score` (`rag.py` lines 134-138): Jaccard overlap of the
two unique-token sets, `0.0` when either set is empty.  Python's `float`
division is idealised as exact division in `ℚ`. -/
def keyword_overlap_score (query text : String) : ℚ :=
  let q := (simple_tokenize query).toFinset
  let t := (simple_tokenize text).toFinset
  if q = ∅ ∨ t = ∅ then 0
  else ((q ∩ t).card : ℚ) / ((q ∪ t).card : ℚ)

/-- C4: for every query string and chunk text the Jaccard overlap score lies
in `[0,1]`; it is `0` whenever either token set is empty; and it is `1` only
when the two token sets are identical and non-empty. -/
theorem keyword_overlap_score_spec (query text : String) :
    (0 ≤ keyword_overlap_score query text ∧ keyword_overlap_score query text ≤ 1) ∧
    ((simple_tokenize query).toFinset = ∅ ∨ (simple_tokenize text).toFinset = ∅ →
      keyword_overlap_score query text = 0) ∧
    (keyword_overlap_score query text = 1 →
      (simple_tokenize query).toFinset = (simple_tokenize text).toFinset ∧
        (simple_tokenize query).toFinset ≠ ∅) := by
  unfold keyword_overlap_score
  set q := (simple_tokenize query).toFinset with hq
  set t := (simple_tokenize text).toFinset with ht
  by_cases h : q = ∅ ∨ t = ∅
  · rw [if_pos h]
    exact ⟨⟨le_refl 0, zero_le_one⟩, fun _ => rfl, fun h1 => absurd h1 zero_ne_one⟩
  · rw [if_neg h]
    push_neg at h
    obtain ⟨h1, h2⟩ := h
    have hqne : q.Nonempty := Finset.nonempty_iff_ne_empty.mpr h1
    have hunion : 0 < (q ∪ t).card :=
      Finset.card_pos.mpr (hqne.mono Finset.subset_union_left)
    have hle : (q ∩ t).card ≤ (q ∪ t).card :=
      Finset.card_le_card Finset.inter_subset_union
    have hunionQ : (0 : ℚ) < ((q ∪ t).card : ℚ) := by exact_mod_cast hunion
    refine ⟨⟨div_nonneg (by positivity) (le_of_lt hunionQ), ?_⟩, ?_, ?_⟩
    · rw [div_le_one hunionQ]
      exact_mod_cast hle
    · intro habs
      rcases habs with h' | h'
      · exact absurd h' h1
      · exact absurd h' h2
    · intro hone
      rw [div_eq_one_iff_eq (ne_of_gt hunionQ)] at hone
      have hcard : (q ∩ t).card = (q ∪ t).card := by exact_mod_cast hone
      have heq : q ∩ t = q ∪ t :=
        Finset.eq_of_subset_of_card_le Finset.inter_subset_union (le_of_eq hcard.symm)
      have hqt : q ⊆ t := by
        intro x hx
        have hxu : x ∈ q ∪ t := Finset.mem_union_left t hx
        rw [← heq] at hxu
        exact (Finset.mem_inter.mp hxu).2
      have htq : t ⊆ q := by
        intro x hx
        have hxu : x ∈ q ∪ t := Finset.mem_union_right q hx
        rw [← heq] at hxu
        exact (Finset.mem_inter.mp hxu).1
      exact ⟨Finset.Subset.antisymm hqt htq, h1⟩

/-- C4 witness: the score of a query against an empty text is `0`, obtained
from `keyword_overlap_score_spec` at a concrete input. -/
theorem keyword_overlap_score_spec_witness :
    keyword_overlap_score "polar bears" "" = 0 :=
  (keyword_overlap_score_spec "polar bears" "").2.1 (Or.inr (by decide))

/-! ## Free-mode sentence selection (`rag.py` lines 140-194) -/

/-- Sentence-final punctuation of the lookbehind in `_SENT_SPLIT_RE`
(`(?<=[.!?])\s+`). -/
def isSentEnd (c : Char) : Bool :=
  c == '.' || c == '!' || c == '?'

/-- Scanner performing `re.split(r'(?<=[.!?])\s+', text)`: the text is cut at
every maximal whitespace run that immediately follows `.`, `!` or `?`.
`cur` holds the current piece in reverse; `skipping` is true while consuming
the whitespace run of a delimiter. -/
def sentGo : List Char → List Char → Bool → List (List Char)
  | [], cur, _ => [cur.reverse]
  | c :: rest, cur, true =>
      if isPySpace c then sentGo rest cur true
      else sentGo rest [c] false
  | c :: rest, cur, false =>
      if isPySpace c && (match cur with | p :: _ => isSentEnd p | [] => false) then
        cur.reverse :: sentGo rest [] true
      else sentGo rest (c :: cur) false

/-- `_split_sentences` (`rag.py` lines 145-148): split into sentences, strip
each, keep those whose stripped length exceeds 2, cap at 50. -/
def split_sentences (text : String) : List String :=
  (((sentGo text.data [] false).map (fun l => pyStrip ⟨l⟩)).filter
    (fun s => 2 < s.length)).take 50

/-- `_score_sentence` (`rag.py` lines 150-159).  The length penalty
`1.0 / (1.0 + math.log2(1 + len(sent)))` is real-valued (`math.log2` has no
exact rational representation), so the embedding abstracts it as a parameter
`pen : ℕ → ℚ` of the sentence length; the theorems below assume of `pen`
only properties the real penalty has (chiefly positivity). -/
def score_sentence (pen : ℕ → ℚ) (qtoks : Finset String) (sent : String) : ℚ :=
  let toks := (simple_tokenize sent).toFinset
  if toks = ∅ then 0
  else
    let inter := (qtoks ∩ toks).card
    let union := (qtoks ∪ toks).card
    let jaccard : ℚ := if union ≠ 0 then (inter : ℚ) / (union : ℚ) else 0
    jaccard * (9 / 10) + pen sent.length * (1 / 10)

/-- Concrete stand-in for the length penalty, used to instantiate witnesses:
like `n ↦ 1 / (1 + log2 (1 + n))` it is positive and strictly decreasing. -/
def penModel (n : ℕ) : ℚ := 1 / (2 + n)

theorem penModel_pos : ∀ n, 0 < penModel n := by
  intro n
  unfold penModel
  positivity

/-- A retrieved hit as produced by `_top_k_from_vectorstore` (`rag.py`
lines 240-257): provenance, truncated snippet, optional score. -/
structure Hit where
  source : String
  snippet : String
  score : Option ℚ
deriving DecidableEq

/-- Candidate collection of `_compose_answer_free` (`rag.py` lines 168-174):
for the first 5 hits, split the snippet into sentences and keep each
sentence with a strictly positive score, paired with that score. -/
def composeCandidates (pen : ℕ → ℚ) (query : String) (hits : List Hit) :
    List (ℚ × String) :=
  let qtoks := (simple_tokenize query).toFinset
  ((hits.take 5).map (fun h =>
    (split_sentences h.snippet).filterMap (fun s =>
      let sc := score_sentence pen qtoks s
      if 0 < sc then some (sc, s) else none))).flatten

/-- `candidates.sort(key=lambda x: x[0], reverse=True)` (`rag.py` line 179):
Python's stable descending sort on the score component. -/
def sortCandidates (cands : List (ℚ × String)) : List (ℚ × String) :=
  stableSort (fun a b => decide (b.1 ≤ a.1)) cands

/-- Selection loop of `_compose_answer_free` (`rag.py` lines 180-189):
walk the sorted candidates, skip a sentence whose lowercased text was
already taken, stop as soon as `max_sentences` sentences are collected.
`seen` is the set of lowercased keys taken so far, `acc` the selected
sentences in reverse. -/
def pickSentences (maxSentences : ℕ) :
    List (ℚ × String) → List String → List String → List String
  | [], _, acc => acc.reverse
  | (_, s) :: rest, seen, acc =>
      let key := lowerStr s
      if seen.contains key then pickSentences maxSentences rest seen acc
      else if maxSentences ≤ acc.length + 1 then (s :: acc).reverse
      else pickSentences maxSentences rest (key :: seen) (s :: acc)

/-- Python `" ".join(picked)`. -/
def joinSpace : List String → String
  | [] => ""
  | [s] => s
  | s :: rest => s ++ " " ++ joinSpace rest

/-- The fixed no-answer sentinel of `rag.py` (lines 176, 194, 315, 324). -/
def noAnswerSentinel : String := "I cannot find this in the documents."

/-- The joined and stripped selection, before truncation
(`rag.py` line 191). -/
def composeJoined (pen : ℕ → ℚ) (query : String) (hits : List Hit)
    (maxSentences : ℕ) : String :=
  pyStrip (joinSpace
    (pickSentences maxSentences (sortCandidates (composeCandidates pen query hits)) [] []))

/-- `_compose_answer_free` (`rag.py` lines 161-194).  `pen` abstracts the
real-valued length penalty as in `score_sentence`. -/
def compose_answer_free (pen : ℕ → ℚ) (query : String) (hits : List Hit)
    (maxSentences maxChars : ℕ) : String :=
  if composeCandidates pen query hits = [] then noAnswerSentinel
  else
    let ans := composeJoined pen query hits maxSentences
    let ans := if maxChars < ans.length then pyRStrip (takeChars ans (maxChars - 1)) ++ "…"
      else ans
    if ans = "" then noAnswerSentinel else ans


/-! ## C1: zero-overlap sentences -/

/-- C1 counterexample: the claim says a candidate sentence with zero token
overlap with the query scores 0 and is never emitted.  In the code a
zero-overlap sentence with a non-empty token set still earns the strictly
positive brevity term `0.1 * length_penalty`, survives the `score > 0`
filter, and is emitted when it is the only candidate: here the query "zzz"
shares no token with "The cat sat.", yet that sentence is the answer. -/
theorem compose_zero_overlap_emitted :
    (simple_tokenize "zzz").toFinset ∩ (simple_tokenize "The cat sat.").toFinset = ∅ ∧
    compose_answer_free penModel "zzz" [⟨"doc.txt", "The cat sat.", none⟩] 3 600 =
      "The cat sat." := by
  constructor
  · decide
  · with_unfolding_all rfl

/-- C1 amended: a candidate sentence whose own token set is empty scores 0
(and is discarded by the `score > 0` filter); a sentence with a non-empty
token set — even one with zero overlap with the query — receives a strictly
positive score, because the length penalty is strictly positive, and so may
be emitted.  `hpen` states the positivity of the real penalty
`1 / (1 + log2 (1 + n))`. -/
theorem score_sentence_zero_iff_empty_tokens (pen : ℕ → ℚ) (hpen : ∀ n, 0 < pen n)
    (qtoks : Finset String) (s : String) :
    ((simple_tokenize s).toFinset = ∅ → score_sentence pen qtoks s = 0) ∧
    ((simple_tokenize s).toFinset ≠ ∅ → 0 < score_sentence pen qtoks s) := by
  unfold score_sentence
  by_cases h : (simple_tokenize s).toFinset = ∅
  · rw [if_pos h]
    exact ⟨fun _ => rfl, fun hne => absurd h hne⟩
  · rw [if_neg h]
    refine ⟨fun habs => absurd habs h, fun _ => ?_⟩
    have hj : (0 : ℚ) ≤
        (if ((simple_tokenize s).toFinset ∪ qtoks ∪ (simple_tokenize s).toFinset).card ≠ 0
          then 1 else 0) := by positivity
    apply add_pos_of_nonneg_of_pos
    · by_cases hu : ((qtoks ∪ (simple_tokenize s).toFinset).card : ℚ) = 0
      · simp only [ne_eq]
        split
        · apply mul_nonneg _ (by norm_num)
          apply div_nonneg (by positivity) (by positivity)
        · simp
      · apply mul_nonneg _ (by norm_num)
        split
        · apply div_nonneg (by positivity) (by positivity)
        · exact le_refl 0
    · exact mul_pos (hpen s.length) (by norm_num)

/-- C1 witness for the amended statement: at the concrete zero-overlap input
the score is strictly positive. -/
theorem score_sentence_zero_iff_empty_tokens_witness :
    0 < score_sentence penModel (simple_tokenize "zzz").toFinset "The cat sat." :=
  (score_sentence_zero_iff_empty_tokens penModel penModel_pos
    (simple_tokenize "zzz").toFinset "The cat sat.").2 (by decide)

/-! ## C9: determinism of the free-mode synthesizer -/

/-- C9: the free-mode synthesizer is a pure function of its inputs: two runs
with identical query, hit list, sentence budget and character budget return
byte-identical strings (the embedding has no other inputs, mirroring the
absence of randomness and of external calls in `_compose_answer_free`). -/
theorem compose_answer_free_deterministic (pen : ℕ → ℚ) (q₁ q₂ : String)
    (h₁ h₂ : List Hit) (ms₁ ms₂ mc₁ mc₂ : ℕ)
    (hq : q₁ = q₂) (hh : h₁ = h₂) (hms : ms₁ = ms₂) (hmc : mc₁ = mc₂) :
    compose_answer_free pen q₁ h₁ ms₁ mc₁ = compose_answer_free pen q₂ h₂ ms₂ mc₂ := by
  subst hq
  subst hh
  subst hms
  subst hmc
  rfl

/-- C9 witness: two identical concrete calls agree. -/
theorem compose_answer_free_deterministic_witness :
    compose_answer_free penModel "ab" [⟨"d", "ab cd.", none⟩] 3 600 =
      compose_answer_free penModel "ab" [⟨"d", "ab cd.", none⟩] 3 600 :=
  compose_answer_free_deterministic penModel "ab" "ab"
    [⟨"d", "ab cd.", none⟩] [⟨"d", "ab cd.", none⟩] 3 3 600 600 rfl rfl rfl rfl

/-! ## C10: the synthesizer never returns the empty string -/

theorem ite_empty_sentinel_ne_empty (s : String) :
    (if s = "" then noAnswerSentinel else s) ≠ "" := by
  by_cases h : s = ""
  · rw [if_pos h]
    decide
  · rw [if_neg h]
    exact h

/-- C10: for every query, hit list, `max_sentences ≥ 1` and `max_chars ≥ 1`,
the free-mode synthesizer never returns the empty string: the final guard
`return ans or "I cannot find this in the documents."` replaces an empty
extraction by the sentinel, and the sentinel is non-empty. -/
theorem compose_answer_free_ne_empty (pen : ℕ → ℚ) (query : String) (hits : List Hit)
    (maxSentences maxChars : ℕ) (hms : 1 ≤ maxSentences) (hmc : 1 ≤ maxChars) :
    compose_answer_free pen query hits maxSentences maxChars ≠ "" := by
  unfold compose_answer_free
  by_cases hc : composeCandidates pen query hits = []
  · rw [if_pos hc]
    decide
  · rw [if_neg hc]
    exact ite_empty_sentinel_ne_empty _

/-- C10 witness: a concrete call returns a non-empty string. -/
theorem compose_answer_free_ne_empty_witness :
    compose_answer_free penModel "a" [] 1 1 ≠ "" :=
  compose_answer_free_ne_empty penModel "a" [] 1 1 (by decide) (by decide)

/-! ## C2: the truncation law -/

theorem stripList_eq_rdropWhile (l : List Char) :
    stripList l = (l.dropWhile isPySpace).rdropWhile isPySpace := rfl

/-- A non-empty stripped list starts with a non-whitespace character. -/
theorem stripList_head_not_space (l : List Char) (c : Char) (t : List Char)
    (h : stripList l = c :: t) : isPySpace c = false := by
  rw [stripList_eq_rdropWhile] at h
  obtain ⟨u, hu⟩ := (List.rdropWhile_prefix isPySpace (l := l.dropWhile isPySpace))
  rw [h, List.cons_append] at hu
  have hne : l.dropWhile isPySpace ≠ [] := by rw [← hu]; exact List.cons_ne_nil _ _
  have hnot := List.head_dropWhile_not isPySpace l hne
  have h1 : (l.dropWhile isPySpace).head? = some c := by rw [← hu]; rfl
  have h2 : (l.dropWhile isPySpace).head? = some ((l.dropWhile isPySpace).head hne) :=
    List.head?_eq_head hne
  have hhead : (l.dropWhile isPySpace).head hne = c :=
    Option.some.inj (h2.symm.trans h1)
  exact hhead ▸ hnot

/-- Stripping a list that starts with a non-whitespace character cannot give
the empty list. -/
theorem stripList_ne_nil (c : Char) (t : List Char) (hc : isPySpace c = false) :
    stripList (c :: t) ≠ [] := by
  rw [stripList_eq_rdropWhile]
  rw [List.dropWhile_cons_of_neg (by simp [hc])]
  rw [ne_eq, List.rdropWhile_eq_nil_iff]
  intro hall
  have := hall c (List.mem_cons_self c t)
  rw [hc] at this
  exact Bool.false_ne_true this

/-- Every sentence produced by `split_sentences` has length at least 3 and
is a stripped string. -/
theorem mem_split_sentences (text s : String) (h : s ∈ split_sentences text) :
    2 < s.length ∧ ∃ l : List Char, s.data = stripList l := by
  unfold split_sentences at h
  have h1 := List.mem_of_mem_take h
  rw [List.mem_filter] at h1
  obtain ⟨h2, h3⟩ := h1
  refine ⟨by exact_mod_cast of_decide_eq_true h3, ?_⟩
  rw [List.mem_map] at h2
  obtain ⟨l, _, hl⟩ := h2
  exact ⟨l, by rw [← hl]; rfl⟩

/-- Every selected sentence comes from the accumulator or from the
candidate list. -/
theorem pickSentences_mem (maxSentences : ℕ) (cands : List (ℚ × String))
    (seen acc : List String) (s : String)
    (h : s ∈ pickSentences maxSentences cands seen acc) :
    s ∈ acc ∨ s ∈ cands.map Prod.snd := by
  induction cands generalizing seen acc with
  | nil =>
      unfold pickSentences at h
      exact Or.inl (List.mem_reverse.mp h)
  | cons c rest ih =>
      unfold pickSentences at h
      by_cases hseen : seen.contains (lowerStr c.2) = true
      · rw [if_pos hseen] at h
        rcases ih seen acc h with h' | h'
        · exact Or.inl h'
        · exact Or.inr (List.mem_cons_of_mem _ h')
      · rw [if_neg hseen] at h
        by_cases hbreak : maxSentences ≤ acc.length + 1
        · rw [if_pos hbreak] at h
          rcases List.mem_cons.mp (List.mem_reverse.mp h) with h' | h'
          · exact Or.inr (h' ▸ List.mem_map_of_mem Prod.snd (List.mem_cons_self c rest))
          · exact Or.inl h'
        · rw [if_neg hbreak] at h
          rcases ih (lowerStr c.2 :: seen) (c.2 :: acc) h with h' | h'
          · rcases List.mem_cons.mp h' with h'' | h''
            · exact Or.inr (h'' ▸ List.mem_map_of_mem Prod.snd (List.mem_cons_self c rest))
            · exact Or.inl h''
          · exact Or.inr (List.mem_cons_of_mem _ h')

/-- The selection loop never shrinks the accumulator. -/
theorem pickSentences_length (maxSentences : ℕ) (cands : List (ℚ × String))
    (seen acc : List String) :
    acc.length ≤ (pickSentences maxSentences cands seen acc).length := by
  induction cands generalizing seen acc with
  | nil =>
      unfold pickSentences
      rw [List.length_reverse]
  | cons c rest ih =>
      unfold pickSentences
      by_cases hseen : seen.contains (lowerStr c.2) = true
      · rw [if_pos hseen]
        exact ih seen acc
      · rw [if_neg hseen]
        by_cases hbreak : maxSentences ≤ acc.length + 1
        · rw [if_pos hbreak, List.length_reverse]
          exact Nat.le_succ _
        · rw [if_neg hbreak]
          exact Nat.le_trans (Nat.le_succ _) (ih _ (c.2 :: acc))

/-- With at least one candidate the selection is non-empty. -/
theorem pickSentences_ne_nil (maxSentences : ℕ) (cands : List (ℚ × String))
    (hc : cands ≠ []) : pickSentences maxSentences cands [] [] ≠ [] := by
  obtain ⟨c, rest, rfl⟩ := List.exists_cons_of_ne_nil hc
  unfold pickSentences
  rw [if_neg (by simp [List.contains])]
  by_cases hbreak : maxSentences ≤ ([] : List String).length + 1
  · rw [if_pos hbreak]
    simp
  · rw [if_neg hbreak]
    intro habs
    have := pickSentences_length maxSentences rest [lowerStr c.2] [c.2]
    rw [habs] at this
    simp at this

/-- `joinSpace` of a non-empty list starts with the first element. -/
theorem joinSpace_cons_data (s : String) (rest : List String) :
    ∃ u, (joinSpace (s :: rest)).data = s.data ++ u := by
  cases rest with
  | nil => exact ⟨[], (List.append_nil s.data).symm⟩
  | cons r t =>
      refine ⟨(" " : String).data ++ (joinSpace (r :: t)).data, ?_⟩
      show ((s ++ " ") ++ joinSpace (r :: t)).data = _
      rw [String.data_append, String.data_append, List.append_assoc]

/-- Every sentence delivered to the selection loop is a sentence of one of
the snippets, hence stripped and of length at least 3. -/
theorem mem_composeCandidates (pen : ℕ → ℚ) (query : String) (hits : List Hit)
    (s : String) (h : s ∈ (composeCandidates pen query hits).map Prod.snd) :
    ∃ hit : Hit, s ∈ split_sentences hit.snippet := by
  unfold composeCandidates at h
  rw [List.mem_map] at h
  obtain ⟨pair, hpair, hsnd⟩ := h
  rw [List.mem_flatten] at hpair
  obtain ⟨inner, hinner, hpairmem⟩ := hpair
  rw [List.mem_map] at hinner
  obtain ⟨hit, _, hhit⟩ := hinner
  rw [← hhit] at hpairmem
  rw [List.mem_filterMap] at hpairmem
  obtain ⟨s₀, hs₀, hg⟩ := hpairmem
  refine ⟨hit, ?_⟩
  by_cases hpos : 0 < score_sentence pen (simple_tokenize query).toFinset s₀
  · rw [if_pos hpos] at hg
    have hpr : pair = (score_sentence pen (simple_tokenize query).toFinset s₀, s₀) :=
      (Option.some.inj hg).symm
    rw [← hsnd, hpr]
    exact hs₀
  · rw [if_neg hpos] at hg
    exact Option.noConfusion hg

/-- With a surviving candidate, the joined-and-stripped selection of
`_compose_answer_free` is a non-empty string. -/
theorem composeJoined_ne_empty (pen : ℕ → ℚ) (query : String) (hits : List Hit)
    (maxSentences : ℕ) (hc : composeCandidates pen query hits ≠ []) :
    composeJoined pen query hits maxSentences ≠ "" := by
  have hsortne : sortCandidates (composeCandidates pen query hits) ≠ [] := by
    rw [ne_eq, sortCandidates, stableSort_eq_nil_iff]
    exact hc
  have hpickne := pickSentences_ne_nil maxSentences _ hsortne
  obtain ⟨s, rest, hpick⟩ := List.exists_cons_of_ne_nil hpickne
  have hsmem : s ∈ pickSentences maxSentences
      (sortCandidates (composeCandidates pen query hits)) [] [] := by
    rw [hpick]
    exact List.mem_cons_self s rest
  have hs1 := pickSentences_mem _ _ _ _ _ hsmem
  rcases hs1 with h' | h'
  · exact absurd h' (List.not_mem_nil s)
  · have hmapped : s ∈ (composeCandidates pen query hits).map Prod.snd := by
      have hperm := (stableSort_perm (fun a b => decide (b.1 ≤ a.1))
        (composeCandidates pen query hits)).map Prod.snd
      exact hperm.mem_iff.mp h'
    obtain ⟨hit, hsent⟩ := mem_composeCandidates pen query hits s hmapped
    obtain ⟨hlen, l, hstrip⟩ := mem_split_sentences hit.snippet s hsent
    obtain ⟨c, t, hdata⟩ : ∃ c t, s.data = c :: t := by
      cases hsd : s.data with
      | nil =>
          rw [String.length, hsd] at hlen
          exact absurd hlen (by decide)
      | cons c t => exact ⟨c, t, rfl⟩
    have hcns : isPySpace c = false :=
      stripList_head_not_space l c t (by rw [← hstrip, hdata])
    unfold composeJoined
    rw [hpick]
    obtain ⟨u, hu⟩ := joinSpace_cons_data s rest
    rw [ne_eq, String.ext_iff]
    show stripList (joinSpace (s :: rest)).data = ("" : String).data → False
    rw [hu, hdata, List.cons_append]
    exact stripList_ne_nil c (t ++ u) hcns

theorem pyRStrip_length_le (s : String) : (pyRStrip s).length ≤ s.length := by
  show ((s.data.reverse.dropWhile isPySpace).reverse).length ≤ s.data.length
  rw [List.length_reverse]
  calc (s.data.reverse.dropWhile isPySpace).length ≤ s.data.reverse.length :=
        (List.dropWhile_sublist isPySpace).length_le
    _ = s.data.length := List.length_reverse s.data

theorem takeChars_length_le (s : String) (n : ℕ) : (takeChars s n).length ≤ n := by
  show (s.data.take n).length ≤ n
  rw [List.length_take]
  exact Nat.min_le_left n _

/-- C2 amended: whenever any candidate survives scoring, the returned answer
has length at most `max_chars`; and whenever truncation is applied (the
joined selection exceeds `max_chars`), the returned string ends with the
ellipsis marker and has length at most `max_chars` — but not always exactly
`max_chars`, because trailing whitespace is stripped after the cut.  (When
no candidate survives, the fixed sentinel is returned regardless of
`max_chars`; see the counterexample.) -/
theorem compose_answer_free_truncation (pen : ℕ → ℚ) (query : String) (hits : List Hit)
    (maxSentences maxChars : ℕ) (hmc : 1 ≤ maxChars)
    (hc : composeCandidates pen query hits ≠ []) :
    (compose_answer_free pen query hits maxSentences maxChars).length ≤ maxChars ∧
    (maxChars < (composeJoined pen query hits maxSentences).length →
      (compose_answer_free pen query hits maxSentences maxChars).data.getLast? =
        some '…' ∧
      (compose_answer_free pen query hits maxSentences maxChars).length ≤ maxChars) := by
  have hjne := composeJoined_ne_empty pen query hits maxSentences hc
  unfold compose_answer_free
  rw [if_neg hc]
  simp only []
  by_cases hlt : maxChars < (composeJoined pen query hits maxSentences).length
  · rw [if_pos hlt]
    set body := pyRStrip (takeChars (composeJoined pen query hits maxSentences)
      (maxChars - 1)) with hbody
    have hne : body ++ "…" ≠ "" := by
      rw [ne_eq, String.ext_iff, String.data_append]
      intro habs
      exact absurd (List.append_eq_nil.mp habs).2 (by decide)
    rw [if_neg hne]
    have hlen : (body ++ "…").length ≤ maxChars := by
      rw [String.length_append]
      have h1 : body.length ≤ maxChars - 1 :=
        le_trans (pyRStrip_length_le _) (takeChars_length_le _ _)
      have h2 : ("…" : String).length = 1 := by decide
      rw [h2]
      omega
    refine ⟨hlen, fun _ => ⟨?_, hlen⟩⟩
    rw [String.data_append]
    show (body.data ++ ['…']).getLast? = some '…'
    rw [List.getLast?_append_cons, List.getLast?_singleton]
  · rw [if_neg hlt]
    rw [if_neg hjne]
    exact ⟨Nat.le_of_not_lt hlt, fun h => absurd h hlt⟩

/-- C2 witness: at a concrete truncating input the bounds of
`compose_answer_free_truncation` hold. -/
theorem compose_answer_free_truncation_witness :
    (compose_answer_free penModel "ab" [⟨"d", "ab cd.", none⟩] 3 4).length ≤ 4 :=
  (compose_answer_free_truncation penModel "ab" [⟨"d", "ab cd.", none⟩] 3 4
    (by decide) (by with_unfolding_all decide)).1

/-- C2 counterexample: the claim fails in two ways.  With no hits the
sentinel (36 characters) is returned even for `max_chars = 10`, so the
length bound fails as stated; and at a truncating input with
`max_chars = 4` the code first right-strips the cut, so the result
"ab…" has length 3, not exactly `max_chars`. -/
theorem compose_answer_free_truncation_counterexample :
    (compose_answer_free penModel "q" [] 3 10).length = 36 ∧
    10 < 36 ∧
    4 < (composeJoined penModel "ab" [⟨"d", "ab cd.", none⟩] 3).length ∧
    compose_answer_free penModel "ab" [⟨"d", "ab cd.", none⟩] 3 4 = "ab…" ∧
    (compose_answer_free penModel "ab" [⟨"d", "ab cd.", none⟩] 3 4).length = 3 := by
  refine ⟨by with_unfolding_all rfl, by decide, by with_unfolding_all decide,
    by with_unfolding_all rfl, by with_unfolding_all rfl⟩

/-! ## C5: lexical retrieval order -/

/-- Round half to even (Python's `round`), on an exact rational. -/
def roundHalfEven (x : ℚ) : ℤ :=
  let f := ⌊x⌋
  let r := x - f
  if r < 1 / 2 then f
  else if 1 / 2 < r then f + 1
  else if f % 2 = 0 then f else f + 1

/-- `round(sc, 4)` (`rag.py` line 257), idealised over exact rationals
(Python rounds the binary-float image; half-way behaviour can differ, which
affects only the reported score field, never selection or order). -/
def round4 (x : ℚ) : ℚ := (roundHalfEven (x * 10000) : ℚ) / 10000

/-- One scored corpus entry `(src, txt, score)` of `_top_k_from_vectorstore`
(`rag.py` line 254). -/
def scoredCorpus (query : String) (corpus : List (String × String)) :
    List (String × String × ℚ) :=
  corpus.map (fun p => (p.1, p.2, keyword_overlap_score query p.2))

/-- The comparison realised by `scored.sort(key=lambda x: x[2], reverse=True)`
(`rag.py` line 255): a stable sort placing higher scores first. -/
def leScore (a b : String × String × ℚ) : Bool :=
  decide (b.2.2 ≤ a.2.2)

/-- Build the result dict of `_top_k_from_vectorstore` (`rag.py` line 257):
snippet truncated to 300 characters, score rounded to 4 digits. -/
def toHit (e : String × String × ℚ) : Hit :=
  ⟨e.1, takeChars e.2.1 300, some (round4 e.2.2)⟩

/-- Free-mode path of `_top_k_from_vectorstore` (`rag.py` lines 254-258):
score every chunk, stable-sort descending by score, keep the first `k`,
shape each as a hit. -/
def top_k_from_vectorstore_free (query : String) (k : ℕ)
    (corpus : List (String × String)) : List Hit :=
  ((stableSort leScore (scoredCorpus query corpus)).take k).map toHit

/-- Comparison taken from the spec's words: descending score, ties broken by
the original (enumeration) index. -/
def leScoreIdx (a b : ℕ × String × String × ℚ) : Bool :=
  decide (b.2.2.2 < a.2.2.2) || (decide (a.2.2.2 = b.2.2.2) && decide (a.1 ≤ b.1))

/-- Spec-side definition of lexical retrieval (spec §4.3): enumerate the
scored corpus, sort by descending score with ties broken by original
position, take the first `k`, shape each as a hit. -/
def lexRetrieveSpec (query : String) (k : ℕ)
    (corpus : List (String × String)) : List Hit :=
  ((((stableSort leScoreIdx (scoredCorpus query corpus).enum).map Prod.snd).take k).map toHit)

theorem insertStable_congr (le le' : α → α → Bool) (x : α) (l : List α)
    (h : ∀ y ∈ l, le x y = le' x y) : insertStable le x l = insertStable le' x l := by
  induction l with
  | nil => rfl
  | cons y ys ih =>
      unfold insertStable
      rw [h y (List.mem_cons_self y ys)]
      by_cases hxy : le' x y = true
      · rw [if_pos hxy, if_pos hxy]
      · rw [if_neg hxy, if_neg hxy]
        rw [ih (fun z hz => h z (List.mem_cons_of_mem y hz))]

theorem insertStable_map (f : α → β) (le₁ : α → α → Bool) (le₂ : β → β → Bool)
    (hle : ∀ a b, le₁ a b = le₂ (f a) (f b)) (x : α) (l : List α) :
    (insertStable le₁ x l).map f = insertStable le₂ (f x) (l.map f) := by
  induction l with
  | nil => rfl
  | cons y ys ih =>
      show (if le₁ x y then x :: y :: ys else y :: insertStable le₁ x ys).map f =
        if le₂ (f x) (f y) then f x :: f y :: ys.map f
          else f y :: insertStable le₂ (f x) (ys.map f)
      rw [hle x y]
      by_cases hxy : le₂ (f x) (f y) = true
      · rw [if_pos hxy, if_pos hxy]
        simp
      · rw [if_neg hxy, if_neg hxy, List.map_cons, ih]

theorem stableSort_map (f : α → β) (le₁ : α → α → Bool) (le₂ : β → β → Bool)
    (hle : ∀ a b, le₁ a b = le₂ (f a) (f b)) (l : List α) :
    (stableSort le₁ l).map f = stableSort le₂ (l.map f) := by
  induction l with
  | nil => rfl
  | cons x xs ih =>
      show (insertStable le₁ x (stableSort le₁ xs)).map f = _
      rw [insertStable_map f le₁ le₂ hle x _, ih]
      rfl

/-- On an index-enumerated list with strictly increasing indices, a stable
sort on the score alone agrees with a sort by (score descending, index
ascending): stability is exactly the tie-breaking by original position. -/
theorem stableSort_score_eq_scoreIdx (l : List (ℕ × String × String × ℚ))
    (hidx : l.Pairwise (fun a b => a.1 < b.1)) :
    stableSort (fun a b => leScore a.2 b.2) l = stableSort leScoreIdx l := by
  induction l with
  | nil => rfl
  | cons a xs ih =>
      rcases List.pairwise_cons.mp hidx with ⟨ha, hxs⟩
      show insertStable _ a (stableSort _ xs) = insertStable _ a (stableSort _ xs)
      rw [ih hxs]
      apply insertStable_congr
      intro y hy
      have hmem : y ∈ xs := (stableSort_perm leScoreIdx xs).mem_iff.mp hy
      have hlt : a.1 < y.1 := ha y hmem
      unfold leScore leScoreIdx
      rcases lt_trichotomy y.2.2.2 a.2.2.2 with h | h | h
      · simp [le_of_lt h, h]
      · simp [h, le_of_lt hlt]
      · simp [not_le.mpr h, not_lt.mpr (le_of_lt h), ne_of_lt h]

/-- C5: for every query, `k` and chunk corpus, the free-mode lexical
retrieval returns exactly the first `k` entries of the corpus sorted by
descending Jaccard score with ties broken by original chunk order (the
spec-side `lexRetrieveSpec`): Python's stable descending sort realises
precisely that order. -/
theorem top_k_eq_lexRetrieveSpec (query : String) (k : ℕ)
    (corpus : List (String × String)) :
    top_k_from_vectorstore_free query k corpus = lexRetrieveSpec query k corpus := by
  unfold top_k_from_vectorstore_free lexRetrieveSpec
  have hidx : (scoredCorpus query corpus).enum.Pairwise (fun a b => a.1 < b.1) := by
    have hr := List.pairwise_lt_range (scoredCorpus query corpus).enum.length
    have hfst : (scoredCorpus query corpus).enum.map Prod.fst =
        List.range (scoredCorpus query corpus).enum.length := by
      rw [List.enum_map_fst, List.enum_length]
    rw [← hfst] at hr
    exact (List.pairwise_map.mp hr)
  rw [← stableSort_score_eq_scoreIdx _ hidx]
  rw [stableSort_map Prod.snd (fun a b => leScore a.2 b.2) leScore (fun a b => rfl)]
  rw [List.enum_map_snd]

/-! ## C6: clamping of `top_k` -/

/-- `top_k = max(1, min(10, int(top_k)))` (`rag.py` line 304); the caller
may pass any integer. -/
def clampTopK (k : ℤ) : ℤ := max 1 (min 10 k)

/-- The retrieval performed by `get_rag_response` in free mode
(`rag.py` lines 304-305): clamp `top_k`, then fetch that many hits. -/
def get_rag_response_hits (query : String) (top_k : ℤ)
    (corpus : List (String × String)) : List Hit :=
  top_k_from_vectorstore_free query (clampTopK top_k).toNat corpus

/-- C6: for every caller-supplied `top_k` (including values below 1 and
above 10) the entry point clamps `k` to `[1, 10]` before retrieval, and the
returned hit list has at most 10 hits. -/
theorem get_rag_response_clamps (top_k : ℤ) :
    (1 ≤ clampTopK top_k ∧ clampTopK top_k ≤ 10) ∧
    ∀ (query : String) (corpus : List (String × String)),
      (get_rag_response_hits query top_k corpus).length ≤ 10 := by
  have h1 : 1 ≤ clampTopK top_k := le_max_left 1 _
  have h2 : clampTopK top_k ≤ 10 :=
    max_le (by norm_num) (min_le_left 10 _)
  refine ⟨⟨h1, h2⟩, ?_⟩
  intro query corpus
  unfold get_rag_response_hits top_k_from_vectorstore_free
  rw [List.length_map]
  calc ((stableSort leScore (scoredCorpus query corpus)).take
        (clampTopK top_k).toNat).length ≤ (clampTopK top_k).toNat :=
        by rw [List.length_take]; exact Nat.min_le_left _ _
    _ ≤ 10 := Int.toNat_le.mpr h2

/-! ## C7: exclusion of marked sections

`_strip_ignored_sections` (`rag.py` lines 60-76) uses two multiline,
case-insensitive regexes: `_PROMPTS_HEADER_RE = ^[=\s]*SECTION:\s*PROMPTS.*?$`
and `_SECTION_HEADER_RE = ^[=\s]*SECTION:\s*.+?$`.  `re.search` returns the
leftmost match; with `re.MULTILINE`, `^` matches at position 0 and after
every newline, and `$` before a newline or at the end.  The classes `[=\s]`
and `\s` may span newlines; since `S` is in neither class, the starred
paddings are forced to the maximal pad run, so a match beginning at a line
start `p` is fully determined, which the functions below compute. -/

/-- The `[=\s]` class of the section-header regexes. -/
def isHdrPad (c : Char) : Bool := c == '=' || isPySpace c

/-- Case-insensitive prefix test; the pattern is given in lowercase. -/
def startsWithCI : List Char → List Char → Bool
  | [], _ => true
  | _ :: _, [] => false
  | p :: ps, c :: cs => (p == c.toLower) && startsWithCI ps cs

/-- Match of `_PROMPTS_HEADER_RE` starting at position `p` (a line start):
skip the `[=\s]*` pad, require `SECTION:` case-insensitively, skip `\s*`,
require `PROMPTS`, and let the lazy `.*?$` run to the end of that line.
Returns the match's end position. -/
def promptsMatchAt (text : List Char) (p : ℕ) : Option ℕ :=
  let l := text.drop p
  let pad := (l.takeWhile isHdrPad).length
  let q := l.drop pad
  if startsWithCI "section:".data q then
    let rest := q.drop 8
    let sp := (rest.takeWhile isPySpace).length
    let r := rest.drop sp
    if startsWithCI "prompts".data r then
      let base := p + pad + 8 + sp + 7
      some (base + ((text.drop base).takeWhile (fun c => !(c == '\n'))).length)
    else none
  else none

/-- The positions at which `^` matches under `re.MULTILINE`: position 0 and
the position after every newline. -/
def lineStarts (text : List Char) : List ℕ :=
  0 :: text.enum.filterMap (fun pr => if pr.2 == '\n' then some (pr.1 + 1) else none)

/-- `_PROMPTS_HEADER_RE.search(text)`: the leftmost match, as a
(start, end) pair of positions. -/
def findPrompts (text : List Char) : Option (ℕ × ℕ) :=
  (lineStarts text).findSome? (fun p => (promptsMatchAt text p).map (fun e => (p, e)))

/-- Match test of `_SECTION_HEADER_RE` at a line start `p`: after the pad
and `SECTION:`, the backtracking `\s*.+?$` succeeds exactly when some
whitespace prefix is followed by a character other than a newline. -/
def sectionMatchAt (text : List Char) (p : ℕ) : Bool :=
  let l := text.drop p
  let pad := (l.takeWhile isHdrPad).length
  let q := l.drop pad
  startsWithCI "section:".data q &&
    (let rest := q.drop 8
     let sp := rest.takeWhile isPySpace
     sp.any (fun c => !(c == '\n')) || decide (sp.length < rest.length))

/-- `_SECTION_HEADER_RE.search(tail)`: start position of the leftmost
match. -/
def findSectionStart (tail : List Char) : Option ℕ :=
  (lineStarts tail).find? (fun p => sectionMatchAt tail p)

/-- End of the cut region: `len(text) if not n else m.end() + n.start()`
(`rag.py` line 75). -/
def promptsRegionEnd (l : List Char) (e : ℕ) : ℕ :=
  match findSectionStart (l.drop e) with
  | none => l.length
  | some n => e + n

/-- `_strip_ignored_sections` (`rag.py` lines 63-76): remove from the start
of the first PROMPTS header match to the next section header (or the end),
then `strip()`; unchanged when no PROMPTS header matches. -/
def strip_ignored_sections (text : String) : String :=
  match findPrompts text.data with
  | none => text
  | some (s, e) =>
      ⟨stripList (text.data.take s ++ text.data.drop (promptsRegionEnd text.data e))⟩

theorem stripList_sublist (l : List Char) : (stripList l).Sublist l := by
  rw [stripList_eq_rdropWhile]
  exact ((List.rdropWhile_prefix isPySpace (l.dropWhile isPySpace)).sublist).trans
    (List.dropWhile_sublist isPySpace)

/-- C7 amended: when no line matches the PROMPTS header pattern the text is
returned unchanged; when one does, only the first such region — from the
leftmost match to the next section-header line or the end of the text — is
removed: the output is drawn entirely (as a sublist, exactly up to the final
`strip()`) from the text outside that first region.  Later PROMPTS regions
are not removed; see the counterexample. -/
theorem strip_ignored_sections_first_region (text : String) :
    (findPrompts text.data = none → strip_ignored_sections text = text) ∧
    (∀ s e, findPrompts text.data = some (s, e) →
      (strip_ignored_sections text).data.Sublist
        (text.data.take s ++ text.data.drop (promptsRegionEnd text.data e))) := by
  constructor
  · intro h
    unfold strip_ignored_sections
    rw [h]
  · intro s e h
    unfold strip_ignored_sections
    rw [h]
    exact stripList_sublist _
/-- C7 witness: at a marker-free concrete text the function is the
identity, via `strip_ignored_sections_first_region`. -/
theorem strip_ignored_sections_first_region_witness :
    strip_ignored_sections "plain text, no markers." = "plain text, no markers." :=
  (strip_ignored_sections_first_region "plain text, no markers.").1 (by decide)

/-- C7 counterexample: the claim says every marked region is removed.  With
two PROMPTS regions the code removes only the first: in the result the
second marker line still matches the PROMPTS pattern (first conjunct checks
a match at its position, 44) and the excluded text "secret2" of the second
region still appears in the output. -/
theorem strip_ignored_sections_counterexample :
    (promptsMatchAt
      ("SECTION: PROMPTS\nsecret1\nSECTION: DATA\nreal\nSECTION: PROMPTS\nsecret2").data
      44).isSome = true ∧
    strip_ignored_sections
      "SECTION: PROMPTS\nsecret1\nSECTION: DATA\nreal\nSECTION: PROMPTS\nsecret2" =
      "SECTION: DATA\nreal\nSECTION: PROMPTS\nsecret2" ∧
    "secret2".data <:+:
      (strip_ignored_sections
        "SECTION: PROMPTS\nsecret1\nSECTION: DATA\nreal\nSECTION: PROMPTS\nsecret2").data := by
  refine ⟨by decide, by decide, by decide⟩

/-! ## C3: document loading and seeding

`_read_all_text_files` (`rag.py` lines 88-128) works on a directory; the
embedding models the directory as a list of files, each with a (base)name,
content, and a readability flag (Python's `open` raising is "not readable").
Paths are identified with basenames: the folder prefix is fixed, so name
comparisons and sort order transfer. -/

/-- A file of the document directory. -/
structure Fil where
  name : String
  content : String
  readable : Bool
deriving DecidableEq

/-- Boolean prefix test on character lists. -/
def listPrefixOf : List Char → List Char → Bool
  | [], _ => true
  | _ :: _, [] => false
  | a :: as, b :: bs => a == b && listPrefixOf as bs

/-- Python `s.startswith(pre)`. -/
def strStartsWith (s pre : String) : Bool := listPrefixOf pre.data s.data

/-- Python `suf in s` would be `contains`; here: `s.endswith(suf)`. -/
def strEndsWith (s suf : String) : Bool := listPrefixOf suf.data.reverse s.data.reverse

/-- Python `sub in s` (substring test). -/
def containsSub (s sub : String) : Bool := decide (sub.data <:+: s.data)

/-- Whether a name matches the default glob set `*.txt,*.md`
(`_DOCS_GLOB`, `rag.py` line 47); `glob` does not match names starting
with a dot. -/
def matchesGlob (name : String) : Bool :=
  !strStartsWith name "." && (strEndsWith name ".txt" || strEndsWith name ".md")

/-- `sorted(set(paths))` of `_expand_globs` (`rag.py` line 86). -/
def sortedDedup (l : List String) : List String :=
  stableSort (fun a b => decide (a ≤ b)) l.dedup

/-- The preferred file name (`rag.py` line 99). -/
def myDocumentName : String := "my_document.txt"

/-- The seeded sample document (`rag.py` lines 107-114). -/
def samplePolarText : String :=
  "Polar bears (Ursus maritimus) rely on sea ice to hunt seals, their primary food source. They are strong swimmers with large paws and a thick fat layer for insulation. Climate change reduces sea ice, shrinking hunting seasons and threatening populations."

/-- The seed file written in the degenerate case. -/
def seedFil : Fil := ⟨"sample_polar_bears.txt", samplePolarText, true⟩

/-- Candidate selection (`rag.py` lines 98-103): the preferred file alone if
present, otherwise all glob matches, deduplicated and sorted. -/
def selectCandidates (files : List Fil) : List String :=
  if files.any (fun f => f.name == myDocumentName) then [myDocumentName]
  else sortedDedup (files.filterMap
    (fun f => if matchesGlob f.name then some f.name else none))

/-- The name-based helper filter (`rag.py` lines 119-121): skip names
starting with an underscore or containing "prompts" case-insensitively. -/
def skipHelperName (name : String) : Bool :=
  strStartsWith name "_" || containsSub (lowerStr name) "prompts"

/-- The read loop (`rag.py` lines 117-127): filter helper names, read each
remaining candidate, skip unreadable files. -/
def readDocs (files : List Fil) (candidates : List String) : List (String × String) :=
  candidates.filterMap (fun name =>
    if skipHelperName name then none
    else match files.find? (fun f => f.name == name) with
      | some f => if f.readable then some (name, f.content) else none
      | none => none)

/-- `_read_all_text_files` (`rag.py` lines 88-128): select candidates; if
none, write the seed file and use it as sole candidate; then filter and
read.  Returns the directory after the call and the document list. -/
def read_all_text_files (files : List Fil) : List Fil × List (String × String) :=
  let candidates := selectCandidates files
  if candidates = [] then
    (files ++ [seedFil], readDocs (files ++ [seedFil]) [seedFil.name])
  else
    (files, readDocs files candidates)

theorem find?_append_of_none {p : α → Bool} {l₁ l₂ : List α}
    (h : l₁.find? p = none) : (l₁ ++ l₂).find? p = l₂.find? p := by
  induction l₁ with
  | nil => rfl
  | cons a as ih =>
      rw [List.find?_cons] at h
      rw [List.cons_append, List.find?_cons]
      rcases hpa : p a with _ | _
      · simp only [hpa] at h ⊢
        exact ih h
      · simp only [hpa] at h
        exact Option.noConfusion h

/-- C3 amended: the seed is written exactly when no file matches the
preferred-name/glob selection, i.e. before the helper-name filtering; in
that case the directory gains the single seed file and the document list is
exactly the seeded sample — so the result is indeed non-empty then.  When
matching files exist but all are filtered out by name (or unreadable), no
seed is written and the document list can be empty; see the
counterexample. -/
theorem read_all_seeds_when_no_match (files : List Fil)
    (h : selectCandidates files = []) :
    read_all_text_files files = (files ++ [seedFil], [(seedFil.name, seedFil.content)]) := by
  unfold read_all_text_files
  rw [if_pos h]
  have hnoglob : ∀ f ∈ files, matchesGlob f.name = false := by
    unfold selectCandidates at h
    by_cases hany : files.any (fun f => f.name == myDocumentName) = true
    · rw [if_pos hany] at h
      exact absurd h (by decide)
    · rw [if_neg hany] at h
      unfold sortedDedup at h
      rw [stableSort_eq_nil_iff, List.dedup_eq_nil, List.filterMap_eq_nil_iff] at h
      intro f hf
      have := h f hf
      by_cases hm : matchesGlob f.name = true
      · rw [if_pos hm] at this
        exact absurd this (Option.noConfusion)
      · exact Bool.not_eq_true _ ▸ hm
  have hfindfiles : files.find? (fun f => f.name == seedFil.name) = none := by
    rw [List.find?_eq_none]
    intro f hf habs
    have hname : f.name = seedFil.name := by exact_mod_cast of_decide_eq_true habs
    have := hnoglob f hf
    rw [hname] at this
    exact absurd this (by decide)
  have hread : readDocs (files ++ [seedFil]) [seedFil.name] =
      [(seedFil.name, seedFil.content)] := by
    unfold readDocs
    rw [List.filterMap_cons]
    rw [if_neg (by decide)]
    rw [find?_append_of_none hfindfiles]
    rfl
  rw [hread]

/-- C3 witness: on an empty directory the loader seeds the sample document
and returns it, via `read_all_seeds_when_no_match`. -/
theorem read_all_seeds_when_no_match_witness :
    read_all_text_files [] = ([seedFil], [(seedFil.name, seedFil.content)]) :=
  read_all_seeds_when_no_match [] (by decide)

/-- C3 counterexample: the claim ties seeding to the state after name-based
filtering.  A directory whose only file is `_x.txt` has a glob match, so no
seed is written, yet the helper filter then drops it: the loader returns an
empty document list — the index would be empty, contradicting the claim. -/
theorem read_all_counterexample :
    skipHelperName "_x.txt" = true ∧
    read_all_text_files [⟨"_x.txt", "hi", true⟩] = ([⟨"_x.txt", "hi", true⟩], []) := by
  refine ⟨by decide, by decide⟩

/-! ## C8: idempotent index build

`init` (`rag.py` lines 260-276) in free mode: if the readiness flag is set,
return at once; otherwise read the documents (possibly seeding), build the
chunk list with the text splitter, and set the flag.  The process state is
the readiness flag, the chunk list and the document directory.  The
external `RecursiveCharacterTextSplitter` is abstracted as a parameter
`split`; idempotence holds for every splitter. -/

/-- Process state of the free-mode module. -/
structure RagState where
  indexReady : Bool
  freeChunks : List (String × String)
  files : List Fil
deriving DecidableEq

/-- `init` combined with `_init_free_mode` (`rag.py` lines 219-228 and
260-276): guarded by the readiness flag; rebuilds `_free_chunks` from the
stripped documents via the splitter `split`. -/
def init (split : String → List String) (s : RagState) : RagState :=
  if s.indexReady then s
  else
    let res := read_all_text_files s.files
    ⟨true,
      (res.2.map (fun d => (split (strip_ignored_sections d.2)).map (fun c => (d.1, c)))).flatten,
      res.1⟩

/-- Stand-in splitter for concrete witnesses (idempotence holds for every
splitter, so any concrete one will do). -/
def splitModel (s : String) : List String := [s]

theorem init_of_ready (split : String → List String) (s : RagState)
    (h : s.indexReady = true) : init split s = s := by
  unfold init
  rw [if_pos h]

theorem init_ready (split : String → List String) (s : RagState) :
    (init split s).indexReady = true := by
  unfold init
  by_cases h : s.indexReady = true
  · rw [if_pos h]
    exact h
  · rw [if_neg h]

/-- C8: the index build is idempotent: from any state with the readiness
flag set, `init` changes nothing (no chunks rebuilt, no files written), and
in general two sequential builds equal one. -/
theorem init_idempotent (split : String → List String) (s : RagState) :
    (s.indexReady = true → init split s = s) ∧
    init split (init split s) = init split s :=
  ⟨init_of_ready split s, init_of_ready split (init split s) (init_ready split s)⟩

/-- C8 witness: a concrete ready state is left unchanged by `init`. -/
theorem init_idempotent_witness :
    init splitModel ⟨true, [("d", "c")], [⟨"d.txt", "c", true⟩]⟩ =
      ⟨true, [("d", "c")], [⟨"d.txt", "c", true⟩]⟩ :=
  (init_idempotent splitModel ⟨true, [("d", "c")], [⟨"d.txt", "c", true⟩]⟩).1 rfl
